import Mathlib

/-!
Verification of the pscanner repository (cmd/pscanner/main.go) against its
specification.

The development is a shallow embedding of the Go program:

* Strings are modelled as `List Char`.  The Go library functions used by the
  program (`strings.Split`, `strings.TrimSpace`, `strings.SplitN`,
  `strings.Contains`, `strconv.Atoi`) are embedded as executable Lean
  functions on `List Char`.
* `parsePorts` (main.go lines 15-60) becomes an `Except`-valued function;
  the Go `map[int]struct{}` of collected ports becomes a `Finset ℤ` and the
  final `sort.Ints` of its keys becomes `Finset.sort (· ≤ ·)`.
* The concurrent scan engine (the `worker` function, the distributor, the
  `WaitGroup` coordinator and the result-collection loop of `main`,
  lines 62-162) is embedded as a small-step transition system `EngStep`
  over states `EngState`; every interleaving of the goroutines corresponds
  to a trace of the relation, so theorems quantified over all traces cover
  all schedules.
* The argument-checking and short-circuit logic of `main`
  (lines 106-143) is embedded as the pure function `mainModel`, whose
  `EngineConfig` records the channel capacities and the clamped worker
  count exactly as the code computes them.
-/

/-! ## Model of the Go string library functions -/

/-- The Latin-1 white-space characters accepted by Go's `unicode.IsSpace`
(`strings.TrimSpace` trims exactly these at either end; the higher Unicode
space code points are irrelevant to the port grammar). -/
def goIsSpace (c : Char) : Bool :=
  c = ' ' || c = '\t' || c = '\n' || c = '\x0b' || c = '\x0c' || c = '\r' ||
  c = '\x85' || c = '\xa0'

/-- Model of `strings.TrimSpace`: drop white space from both ends. -/
def trimSpace (s : List Char) : List Char :=
  ((s.dropWhile goIsSpace).reverse.dropWhile goIsSpace).reverse

/-- Model of `strings.Split(s, sep)` for a one-character separator:
split at every occurrence of `sep`.  `splitOnChar sep [] = [[]]`, matching
Go, where `Split("", ",")` is `[""]`. -/
def splitOnChar (sep : Char) : List Char → List (List Char)
  | [] => [[]]
  | c :: rest =>
    if c = sep then [] :: splitOnChar sep rest
    else
      match splitOnChar sep rest with
      | [] => [[c]]
      | t :: ts => (c :: t) :: ts

/-- Model of `strings.SplitN(s, sep, 2)` for a one-character separator:
`[s]` when `sep` does not occur, otherwise the part before the first
occurrence and everything after it. -/
def splitN2 (sep : Char) : List Char → List (List Char)
  | [] => [[]]
  | c :: rest =>
    if c = sep then [[], rest]
    else
      match splitN2 sep rest with
      | [] => [[c]]
      | t :: ts => (c :: t) :: ts

/-- Value of a list of decimal digits, most significant first. -/
def digitsVal (l : List Char) : ℤ :=
  l.foldl (fun a c => a * 10 + ((c.toNat : ℤ) - ('0'.toNat : ℤ))) 0

/-- Model of `strconv.Atoi` (= `strconv.ParseInt(s, 10, 0)` on a 64-bit
platform): an optional leading sign followed by at least one decimal
digit; any other shape, and any value outside the `int64` range, is an
error (`none`). -/
def atoi (s : List Char) : Option ℤ :=
  match s with
  | [] => none
  | c :: rest =>
    let digits := if c = '-' || c = '+' then rest else c :: rest
    if digits = [] then none
    else if digits.all Char.isDigit then
      let v : ℤ := digitsVal digits
      let sv : ℤ := if c = '-' then -v else v
      if sv < -(2 ^ 63) || sv > 2 ^ 63 - 1 then none else some sv
    else none

/-! ## The port-specification resolver (`parsePorts`, main.go lines 15-60) -/

/-- The error kinds `parsePorts` can return, one per `fmt.Errorf` site:
`invalidRangeSplit` is "invalid range: %s" (line 27), `invalidPort` is
"invalid port: %s" (lines 31, 35, 46), `invalidRange` is
"invalid range bounds: %s" (line 38), `portOutOfRange` is
"port out of range: %d" (line 49). -/
inductive PErr where
  | invalidRangeSplit : PErr
  | invalidPort : PErr
  | invalidRange : PErr
  | portOutOfRange : PErr
deriving DecidableEq, Repr

/-- One iteration of the token loop of `parsePorts` (lines 24-52) on an
already-trimmed, non-empty token `p`, threading the accumulated set. -/
def processToken (st : Finset ℤ) (p : List Char) : Except PErr (Finset ℤ) :=
  if '-' ∈ p then
    match splitN2 '-' p with
    | [b0, b1] =>
      match atoi (trimSpace b0) with
      | none => .error .invalidPort
      | some a =>
        match atoi (trimSpace b1) with
        | none => .error .invalidPort
        | some b =>
          if a < 1 || b < 1 || a > 65535 || b > 65535 || a > b then
            .error .invalidRange
          else
            .ok (st ∪ Finset.Icc a b)
    | _ => .error .invalidRangeSplit
  else
    match atoi p with
    | none => .error .invalidPort
    | some n =>
      if n < 1 || n > 65535 then .error .portOutOfRange
      else .ok (insert n st)

/-- The loop body of `parsePorts` for one raw comma-separated part:
trim it, skip it when empty, otherwise process it (lines 19-23). -/
def parseStep (st : Finset ℤ) (p : List Char) : Except PErr (Finset ℤ) :=
  let t := trimSpace p
  if t = [] then .ok st else processToken st t

/-- Model of `parsePorts` (lines 15-60): split the specification on commas,
fold the token loop over the parts (an error aborts the loop, as the Go
code returns early), then emit the set's members in ascending order
(`sort.Ints` over the map's keys). -/
def parsePorts (spec : List Char) : Except PErr (List ℤ) :=
  match (splitOnChar ',' spec).foldlM parseStep (∅ : Finset ℤ) with
  | .error e => .error e
  | .ok st => .ok (st.sort (· ≤ ·))

/-! ## The concurrent scan engine (main.go lines 62-72 and 131-162)

The engine is embedded as a small-step transition system.  A state holds:

* `jobs` — the ports still in the job channel, in FIFO order (the
  distributor goroutine of lines 150-155 enqueues the whole sorted port
  list and then closes the channel; a worker's `range` receive takes the
  head);
* `inFlight` — the multiset of ports currently held by busy workers
  (each `worker` goroutine of lines 62-72 holds at most one port at a
  time, and at most `n` workers exist, so `inFlight.card ≤ n`);
* `results` — the open ports delivered on the result channel so far, in
  delivery order (line 69 sends a port exactly when the dial succeeded;
  the aggregator loop of lines 157-160 is the sole, always-ready reader);
* `dialed` — the log of completed dial attempts (line 66), used to state
  the exactly-once property.

Whether a dial succeeds is a pure oracle `ℤ → Bool` (the fixed behavior
of the network for this run); a timed-out or refused dial is simply
`oracle p = false`.  A step either hands the next queued job to an idle
worker (`fetch`) or completes one in-flight dial (`finish`), recording
the result exactly when the oracle accepts.  Interleavings of the real
goroutines correspond to traces of this relation. -/

structure EngState where
  jobs : List ℤ
  inFlight : Multiset ℤ
  results : List ℤ
  dialed : List ℤ
deriving DecidableEq

/-- One atomic step of the engine with `n` workers and dial oracle
`oracle`. -/
inductive EngStep (n : ℕ) (oracle : ℤ → Bool) : EngState → EngState → Prop
  | fetch (s : EngState) (j : ℤ) (rest : List ℤ) :
      s.jobs = j :: rest →
      Multiset.card s.inFlight < n →
      EngStep n oracle s ⟨rest, j ::ₘ s.inFlight, s.results, s.dialed⟩
  | finish (s : EngState) (j : ℤ) :
      j ∈ s.inFlight →
      EngStep n oracle s
        ⟨s.jobs, s.inFlight.erase j,
         if oracle j then s.results ++ [j] else s.results,
         s.dialed ++ [j]⟩

/-- The initial engine state: every port queued (the distributor writes
the resolved, ascending port list), no busy worker, nothing reported. -/
def engInit (ports : List ℤ) : EngState :=
  ⟨ports, 0, [], []⟩

/-- A state is final when the job channel is closed and drained and every
worker has exited its receive loop (the `WaitGroup` of lines 145-148 has
hit zero, so the result channel is closed and the aggregator loop ends). -/
def engFinal (s : EngState) : Prop :=
  s.jobs = [] ∧ s.inFlight = 0

instance (s : EngState) : Decidable (engFinal s) := by
  unfold engFinal; infer_instance

/-- Zero or more engine steps. -/
def engRun (n : ℕ) (oracle : ℤ → Bool) : EngState → EngState → Prop :=
  Relation.ReflTransGen (EngStep n oracle)

/-- Model of `sort.Ints` (line 162) applied to the collected results:
the ascending reordering of the list. -/
def sortInts (l : List ℤ) : List ℤ :=
  (l : Multiset ℤ).sort (· ≤ ·)

/-! ## Model of `main`'s argument checking and engine setup
(main.go lines 106-155) -/

/-- The configuration `main` builds when it actually runs the engine:
`jobCapacity` is the buffer size of `portsCh` (line 131:
`make(chan int, *workersFlag)` — the requested worker count),
`resultCapacity` the buffer size of `resultsCh` (line 132:
`make(chan int)` — unbuffered), `numWorkers` the clamped goroutine count
of lines 136-139, also the count printed at line 165. -/
structure EngineConfig where
  host : List Char
  ports : List ℤ
  jobCapacity : ℤ
  resultCapacity : ℤ
  numWorkers : ℤ
  timeoutMs : ℤ
deriving DecidableEq

/-- The outcome of `main` up to the point where the engine runs:
the three `os.Exit(2)` argument errors (lines 106-119), the
`os.Exit(2)` on a port-parse error (lines 121-125), the
"no ports to scan" short-circuit with `os.Exit(0)` (lines 126-129), or
an engine run with the recorded configuration. -/
inductive MainOutcome where
  | exitMissingHost : MainOutcome
  | exitWorkersNonPositive : MainOutcome
  | exitWorkersTooLarge : MainOutcome
  | exitParseError : PErr → MainOutcome
  | nothingToScan : MainOutcome
  | runEngine : EngineConfig → MainOutcome
deriving DecidableEq

/-- Model of `main` from flag validation to engine setup (lines 106-155). -/
def mainModel (host portsSpec : List Char) (workers timeoutMs : ℤ) : MainOutcome :=
  if host = [] then .exitMissingHost
  else if workers ≤ 0 then .exitWorkersNonPositive
  else if workers > 10000 then .exitWorkersTooLarge
  else
    match parsePorts portsSpec with
    | .error e => .exitParseError e
    | .ok ports =>
      if ports.length = 0 then .nothingToScan
      else
        .runEngine
          { host := host
            ports := ports
            jobCapacity := workers
            resultCapacity := 0
            numWorkers := if workers > (ports.length : ℤ) then (ports.length : ℤ) else workers
            timeoutMs := timeoutMs }

/-- The process exit code of each outcome (`os.Exit(2)` on argument and
parse errors, normal termination — code 0 — otherwise). -/
def exitCode : MainOutcome → ℤ
  | .exitMissingHost => 2
  | .exitWorkersNonPositive => 2
  | .exitWorkersTooLarge => 2
  | .exitParseError _ => 2
  | .nothingToScan => 0
  | .runEngine _ => 0

/-- Whether the outcome starts the concurrent engine. -/
def engineInvoked : MainOutcome → Bool
  | .runEngine _ => true
  | _ => false

/-! ## Engine invariant and measure -/

/-- The engine invariant: every port is in exactly one place (already
dialed, held by a worker, or still queued), the delivered results are
exactly the dialed ports the oracle accepted, and no more than `n`
workers are busy. -/
def engInv (ports : List ℤ) (n : ℕ) (oracle : ℤ → Bool) (s : EngState) : Prop :=
  (s.dialed : Multiset ℤ) + s.inFlight + (s.jobs : Multiset ℤ) = (ports : Multiset ℤ) ∧
  (s.results : Multiset ℤ) = (s.dialed : Multiset ℤ).filter (fun j => oracle j = true) ∧
  Multiset.card s.inFlight ≤ n

/-- Termination measure: queued jobs count twice, in-flight jobs once;
every step strictly decreases it. -/
def engMeasure (s : EngState) : ℕ :=
  2 * s.jobs.length + Multiset.card s.inFlight

/-! # Theorems -/

/-! ## Helper lemmas -/

/-- A sorted, duplicate-free list with the right elements is the sort of
the set; used to evaluate `Finset.sort` on concrete sets. -/
theorem finsetSortEq (l : List ℤ) {s : Finset ℤ} (h1 : l.Sorted (· ≤ ·)) (h2 : l.Nodup)
    (h3 : l.toFinset = s) : s.sort (· ≤ ·) = l :=
  List.eq_of_perm_of_sorted
    ((Finset.sort_perm_toList _ s).trans (h3 ▸ List.toFinset_toList h2))
    (Finset.sort_sorted _ s) h1

/-- Every engine step preserves the invariant. -/
theorem engInv_step {ports : List ℤ} {n : ℕ} {oracle : ℤ → Bool} {s t : EngState}
    (hs : engInv ports n oracle s) (hst : EngStep n oracle s t) :
    engInv ports n oracle t := by
  obtain ⟨h1, h2, h3⟩ := hs
  cases hst with
  | fetch j rest hjobs hcard =>
    refine ⟨?_, h2, ?_⟩
    · rw [← h1, hjobs]
      simp only [← Multiset.cons_coe, ← Multiset.singleton_add]
      abel
    · simpa using hcard
  | finish j hj =>
    have hcons : j ::ₘ s.inFlight.erase j = s.inFlight := Multiset.cons_erase hj
    refine ⟨?_, ?_, ?_⟩
    · calc ((s.dialed ++ [j] : List ℤ) : Multiset ℤ) + s.inFlight.erase j
            + (s.jobs : Multiset ℤ)
          = (s.dialed : Multiset ℤ) + (j ::ₘ s.inFlight.erase j) + (s.jobs : Multiset ℤ) := by
            rw [← Multiset.coe_add]
            simp only [← Multiset.singleton_add, Multiset.coe_singleton]
            abel
        _ = (s.dialed : Multiset ℤ) + s.inFlight + (s.jobs : Multiset ℤ) := by rw [hcons]
        _ = (ports : Multiset ℤ) := h1
    · show ((if oracle j then s.results ++ [j] else s.results : List ℤ) : Multiset ℤ)
          = Multiset.filter (fun x => oracle x = true) ((s.dialed ++ [j] : List ℤ) : Multiset ℤ)
      rw [← Multiset.coe_add, Multiset.filter_add, ← h2]
      by_cases ho : oracle j
      · simp [ho, ← Multiset.coe_add, Multiset.filter_singleton]
      · simp [ho, Multiset.filter_singleton]
    · calc Multiset.card (s.inFlight.erase j) ≤ Multiset.card s.inFlight :=
            Multiset.card_le_card (Multiset.erase_le j s.inFlight)
        _ ≤ n := h3

/-- The invariant holds initially. -/
theorem engInv_init (ports : List ℤ) (n : ℕ) (oracle : ℤ → Bool) :
    engInv ports n oracle (engInit ports) := by
  refine ⟨by simp [engInit], by simp [engInit], by simp [engInit]⟩

/-- The invariant holds in every state reachable from the initial one. -/
theorem engInv_run {ports : List ℤ} {n : ℕ} {oracle : ℤ → Bool} {s : EngState}
    (h : engRun n oracle (engInit ports) s) : engInv ports n oracle s := by
  induction h with
  | refl => exact engInv_init ports n oracle
  | tail _ hstep ih => exact engInv_step ih hstep

/-- In a reachable final state, the dial log is a permutation of the port
list and the delivered results are a permutation of the oracle-accepted
ports. -/
theorem engFinal_perm {ports : List ℤ} {n : ℕ} {oracle : ℤ → Bool} {s : EngState}
    (hrun : engRun n oracle (engInit ports) s) (hfin : engFinal s) :
    s.dialed.Perm ports ∧ s.results.Perm (ports.filter (fun x => oracle x)) := by
  obtain ⟨h1, h2, _⟩ := engInv_run hrun
  obtain ⟨hj, hf⟩ := hfin
  rw [hj, hf] at h1
  simp only [Multiset.coe_nil, add_zero] at h1
  have hd : s.dialed.Perm ports := Multiset.coe_eq_coe.mp h1
  refine ⟨hd, ?_⟩
  rw [← Multiset.coe_eq_coe]
  rw [h2, h1]
  simp [Multiset.filter_coe]

/-- Every engine step strictly decreases the measure. -/
theorem engMeasure_step {n : ℕ} {oracle : ℤ → Bool} {s t : EngState}
    (h : EngStep n oracle s t) : engMeasure t < engMeasure s := by
  cases h with
  | fetch j rest hjobs hcard =>
    simp only [engMeasure, hjobs]
    simp only [List.length_cons, Multiset.card_cons]
    omega
  | finish j hj =>
    have hpos : 0 < Multiset.card s.inFlight :=
      Multiset.card_pos.mpr (fun h0 => by simp [h0] at hj)
    simp only [engMeasure, Multiset.card_erase_of_mem hj, Nat.pred_eq_sub_one]
    omega

/-- The measure of any reachable state is at most that of the initial
state, `2 * |ports|`; hence every run from the initial state performs at
most `2 * |ports|` steps. -/
theorem engMeasure_run {ports : List ℤ} {n : ℕ} {oracle : ℤ → Bool} {s : EngState}
    (h : engRun n oracle (engInit ports) s) : engMeasure s ≤ 2 * ports.length := by
  induction h with
  | refl => simp [engMeasure, engInit]
  | tail _ hstep ih => exact le_of_lt (lt_of_lt_of_le (engMeasure_step hstep) ih)

/-- From any reachable non-final state some step is enabled (no
deadlock), provided at least one worker exists. -/
theorem engProgress {ports : List ℤ} {n : ℕ} {oracle : ℤ → Bool} {s : EngState}
    (hn : 1 ≤ n) (hrun : engRun n oracle (engInit ports) s) (hnf : ¬ engFinal s) :
    ∃ t, EngStep n oracle s t := by
  obtain ⟨-, -, h3⟩ := engInv_run hrun
  cases hjl : s.jobs with
  | cons j rest =>
    by_cases hcard : Multiset.card s.inFlight < n
    · exact ⟨_, EngStep.fetch s j rest hjl hcard⟩
    · have hpos : 0 < Multiset.card s.inFlight := by omega
      obtain ⟨j', hj'⟩ := Multiset.card_pos_iff_exists_mem.mp hpos
      exact ⟨_, EngStep.finish s j' hj'⟩
  | nil =>
    have hne : s.inFlight ≠ 0 := fun h0 => hnf ⟨hjl, h0⟩
    have hpos : 0 < Multiset.card s.inFlight := Multiset.card_pos.mpr hne
    obtain ⟨j', hj'⟩ := Multiset.card_pos_iff_exists_mem.mp hpos
    exact ⟨_, EngStep.finish s j' hj'⟩

/-! ## Claim C2 — scan correctness -/

/-- C2: for every non-empty port set, every worker count ≥ 1, and every
fixed dial oracle in which exactly the ports of a subset S accept
connections and all other dials fail, the sequence of open ports the
engine returns equals the ascending sort of S — independent of the worker
count (the theorem holds for every `n ≥ 1` and every complete run, i.e.
every schedule). -/
theorem claim_c2_scan_correctness {n : ℕ} (ports : List ℤ) (oracle : ℤ → Bool)
    (S : Finset ℤ) (hn : 1 ≤ n) (hne : ports ≠ []) (hnd : ports.Nodup)
    (hS : ∀ p, oracle p = true ↔ p ∈ S) (hsub : ∀ p ∈ S, p ∈ ports)
    {s : EngState} (hrun : engRun n oracle (engInit ports) s) (hfin : engFinal s) :
    sortInts s.results = S.sort (· ≤ ·) := by
  obtain ⟨-, hres⟩ := engFinal_perm hrun hfin
  have hms : (s.results : Multiset ℤ) = S.val := by
    rw [Multiset.coe_eq_coe.mpr hres]
    have hnodup : (ports.filter (fun x => oracle x)).Nodup := hnd.filter _
    rw [(Multiset.coe_nodup.mpr hnodup).ext S.nodup]
    intro a
    simp only [Multiset.mem_coe, List.mem_filter, ← Finset.mem_def]
    constructor
    · rintro ⟨-, ho⟩
      exact (hS a).mp ho
    · intro ha
      exact ⟨hsub a ha, (hS a).mpr ha⟩
  show Multiset.sort (· ≤ ·) (s.results : Multiset ℤ) = Finset.sort (· ≤ ·) S
  rw [hms]
  rfl

/-- Witness for C2: a complete one-worker run over the port list `[80]`
with `S = {80}` (the dial of 80 succeeds). -/
theorem claim_c2_witness :
    sortInts (EngState.mk [] 0 [80] [80]).results
      = Finset.sort (· ≤ ·) ({80} : Finset ℤ) := by
  have h1 : EngStep 1 (fun p => decide (p = 80)) (engInit [80]) ⟨[], 80 ::ₘ 0, [], []⟩ :=
    EngStep.fetch _ 80 [] rfl (by decide)
  have h2 : EngStep 1 (fun p => decide (p = 80)) ⟨[], 80 ::ₘ 0, [], []⟩ ⟨[], 0, [80], [80]⟩ :=
    EngStep.finish _ 80 (by decide)
  have hrun : engRun 1 (fun p => decide (p = 80)) (engInit [80]) ⟨[], 0, [80], [80]⟩ :=
    Relation.ReflTransGen.head h1 (Relation.ReflTransGen.head h2 Relation.ReflTransGen.refl)
  exact claim_c2_scan_correctness [80] (fun p => decide (p = 80)) {80}
    (by decide) (by decide) (by decide)
    (by intro p; simp) (by intro p hp; simpa using hp)
    hrun ⟨rfl, rfl⟩

/-! ## Claim C3 — each port dialed exactly once -/

/-- C3: for every non-empty port set of size K and every worker count in
[1, K], a complete run of the engine performs exactly K dial attempts:
each port in the set is dialed exactly once and no port is omitted,
regardless of how jobs interleave across workers (the theorem quantifies
over every complete run of the step relation). -/
theorem claim_c3_exactly_once {n : ℕ} (ports : List ℤ) (oracle : ℤ → Bool)
    (hn : 1 ≤ n) (hK : n ≤ ports.length) (hne : ports ≠ []) (hnd : ports.Nodup)
    {s : EngState} (hrun : engRun n oracle (engInit ports) s) (hfin : engFinal s) :
    s.dialed.length = ports.length ∧ (∀ p ∈ ports, s.dialed.count p = 1) ∧
    (∀ p, p ∉ ports → s.dialed.count p = 0) := by
  obtain ⟨hd, -⟩ := engFinal_perm hrun hfin
  refine ⟨hd.length_eq, ?_, ?_⟩
  · intro p hp
    rw [hd.count_eq]
    exact List.count_eq_one_of_mem hnd hp
  · intro p hp
    rw [hd.count_eq]
    exact List.count_eq_zero_of_not_mem hp

/-- Witness for C3: a complete one-worker run over the port list `[7]`
in which the dial fails; the dial log is exactly `[7]`. -/
theorem claim_c3_witness :
    (EngState.mk [] 0 [] [7]).dialed.length = [(7:ℤ)].length ∧
    (∀ p ∈ [(7:ℤ)], (EngState.mk [] 0 [] [7]).dialed.count p = 1) ∧
    (∀ p : ℤ, p ∉ [(7:ℤ)] → (EngState.mk [] 0 [] [7]).dialed.count p = 0) := by
  have h1 : EngStep 1 (fun _ => false) (engInit [7]) ⟨[], 7 ::ₘ 0, [], []⟩ :=
    EngStep.fetch _ 7 [] rfl (by decide)
  have h2 : EngStep 1 (fun _ => false) ⟨[], 7 ::ₘ 0, [], []⟩ ⟨[], 0, [], [7]⟩ :=
    EngStep.finish _ 7 (by decide)
  have hrun : engRun 1 (fun _ => false) (engInit [7]) ⟨[], 0, [], [7]⟩ :=
    Relation.ReflTransGen.head h1 (Relation.ReflTransGen.head h2 Relation.ReflTransGen.refl)
  exact claim_c3_exactly_once [7] (fun _ => false)
    (by decide) (by decide) (by decide) (by decide) hrun ⟨rfl, rfl⟩

/-! ## Claim C4 — termination without deadlock -/

/-- C4: for every non-empty port set and worker count ≥ 1 the engine
terminates under every schedule and oracle (in particular when every dial
times out, i.e. the oracle is constantly false): every step strictly
decreases the measure, so every run from the initial state performs at
most `2·|ports|` steps, and from every reachable non-final state a step
is enabled — the system can only stop in the final state, in which the
job channel is drained and every worker has exited, so the result channel
gets closed and the aggregator loop ends.  No deadlock occurs for any
worker count and port-set size. -/
theorem claim_c4_termination (ports : List ℤ) (oracle : ℤ → Bool) (n : ℕ)
    (hn : 1 ≤ n) (hne : ports ≠ []) :
    (∀ s t, EngStep n oracle s t → engMeasure t < engMeasure s) ∧
    (∀ s, engRun n oracle (engInit ports) s → engMeasure s ≤ 2 * ports.length) ∧
    (∀ s, engRun n oracle (engInit ports) s → ¬ engFinal s → ∃ t, EngStep n oracle s t) :=
  ⟨fun _ _ h => engMeasure_step h,
   fun _ h => engMeasure_run h,
   fun _ h hnf => engProgress hn h hnf⟩

/-- Witness for C4: the termination bundle instantiated at the port list
`[80]`, one worker, and the all-timeouts oracle. -/
theorem claim_c4_witness :
    (∀ s t, EngStep 1 (fun _ => false) s t → engMeasure t < engMeasure s) ∧
    (∀ s, engRun 1 (fun _ => false) (engInit [80]) s → engMeasure s ≤ 2 * [(80:ℤ)].length) ∧
    (∀ s, engRun 1 (fun _ => false) (engInit [80]) s → ¬ engFinal s →
      ∃ t, EngStep 1 (fun _ => false) s t) :=
  claim_c4_termination [80] (fun _ => false) 1 (by decide) (by decide)

/-! ## Concrete evaluations of `parsePorts` (shared helpers) -/

/-- `parsePorts "443,80" = ok [80, 443]`. -/
theorem parseEval_443_80 : parsePorts "443,80".toList = .ok [80, 443] := by
  have h : parsePorts "443,80".toList
      = .ok ((insert (80:ℤ) (insert 443 ∅) : Finset ℤ).sort (· ≤ ·)) := rfl
  rw [h, finsetSortEq [80, 443] (by decide) (by decide) (by decide)]

/-- `parsePorts "80,443" = ok [80, 443]`. -/
theorem parseEval_80_443 : parsePorts "80,443".toList = .ok [80, 443] := by
  have h : parsePorts "80,443".toList
      = .ok ((insert (443:ℤ) (insert 80 ∅) : Finset ℤ).sort (· ≤ ·)) := rfl
  rw [h, finsetSortEq [80, 443] (by decide) (by decide) (by decide)]

/-- `parsePorts "20-22,21" = ok [20, 21, 22]`. -/
theorem parseEval_20_22_21 : parsePorts "20-22,21".toList = .ok [20, 21, 22] := by
  have h : parsePorts "20-22,21".toList
      = .ok ((insert (21:ℤ) (∅ ∪ Finset.Icc 20 22) : Finset ℤ).sort (· ≤ ·)) := rfl
  rw [h, finsetSortEq [20, 21, 22] (by decide) (by decide) (by decide)]

/-! ## Claim C8 — worker-count clamping -/

/-- C8: whenever `main` reaches the engine (host present, worker flag in
range, ports parsed, port set non-empty), the number of worker goroutines
started — which is also the count reported in the output — equals
`min(workerCount, |ports|)`; in particular requesting more workers than
ports yields exactly `|ports|` workers. -/
theorem claim_c8_worker_clamp (host portsSpec : List Char) (workers timeoutMs : ℤ)
    (ports : List ℤ) (hhost : host ≠ []) (hw1 : 1 ≤ workers) (hw2 : workers ≤ 10000)
    (hparse : parsePorts portsSpec = .ok ports) (hne : ports ≠ []) :
    ∃ cfg, mainModel host portsSpec workers timeoutMs = .runEngine cfg ∧
      cfg.ports = ports ∧ cfg.numWorkers = min workers (ports.length : ℤ) := by
  have hlen : ¬ ports.length = 0 := fun h => hne (List.length_eq_zero.mp h)
  have hmm : mainModel host portsSpec workers timeoutMs =
      .runEngine
        { host := host, ports := ports, jobCapacity := workers, resultCapacity := 0,
          numWorkers := if workers > (ports.length : ℤ) then (ports.length : ℤ) else workers,
          timeoutMs := timeoutMs } := by
    unfold mainModel
    rw [if_neg hhost, if_neg (by omega), if_neg (by omega), hparse]
    simp only [if_neg hlen]
  refine ⟨_, hmm, rfl, ?_⟩
  show (if workers > (ports.length : ℤ) then (ports.length : ℤ) else workers)
      = min workers (ports.length : ℤ)
  rcases le_or_lt workers (ports.length : ℤ) with h | h
  · rw [if_neg (not_lt.mpr h), min_eq_left h]
  · rw [if_pos h, min_eq_right h.le]

/-- Witness for C8: requesting 7 workers for the two-port specification
"80,443" yields exactly 2 workers. -/
theorem claim_c8_witness :
    ∃ cfg, mainModel ['h'] "80,443".toList 7 500 = .runEngine cfg ∧
      cfg.ports = [80, 443] ∧ cfg.numWorkers = min 7 (([(80:ℤ), 443].length : ℤ)) :=
  claim_c8_worker_clamp ['h'] "80,443".toList 7 500 [80, 443]
    (by decide) (by decide) (by decide) parseEval_80_443 (by decide)

/-! ## Claim C1 — channel capacities -/

/-- Counterexample to C1 as stated: with the two-port specification
"80,443" and a requested worker count of 5, the job channel is created
with capacity 5 (the requested count, line 131 runs before the clamp of
lines 136-139), not the effective worker count 2. -/
theorem claim_c1_counterexample :
    ∃ cfg, mainModel ['h'] "80,443".toList 5 500 = .runEngine cfg ∧
      cfg.ports.length = 2 ∧ cfg.numWorkers = 2 ∧
      cfg.jobCapacity = 5 ∧ cfg.jobCapacity ≠ 2 := by
  have hmm : mainModel ['h'] "80,443".toList 5 500 =
      .runEngine
        { host := ['h'], ports := [80, 443], jobCapacity := 5, resultCapacity := 0,
          numWorkers := if (5:ℤ) > (([(80:ℤ), 443].length : ℤ)) then (([(80:ℤ), 443].length : ℤ)) else 5,
          timeoutMs := 500 } := by
    unfold mainModel
    rw [if_neg (by decide), if_neg (by decide), if_neg (by decide), parseEval_80_443]
    simp only [if_neg (by decide : ¬ [(80:ℤ), 443].length = 0)]
  exact ⟨_, hmm, by decide, by decide, by decide, by decide⟩

/-- C1 amended: the job channel is created buffered with capacity equal
to the requested `workerCount` (the channel is created at line 131,
before the clamp), not the effective worker count; the result channel is
created unbuffered.  For a requested count greater than `|ports|` the
capacity therefore equals the requested count, not `|ports|`. -/
theorem claim_c1_amended (host portsSpec : List Char) (workers timeoutMs : ℤ)
    (cfg : EngineConfig)
    (h : mainModel host portsSpec workers timeoutMs = .runEngine cfg) :
    cfg.jobCapacity = workers ∧ cfg.resultCapacity = 0 := by
  unfold mainModel at h
  split at h
  · exact absurd h (by simp)
  · split at h
    · exact absurd h (by simp)
    · split at h
      · exact absurd h (by simp)
      · split at h
        · exact absurd h (by simp)
        · split at h
          · exact absurd h (by simp)
          · cases h
            exact ⟨rfl, rfl⟩

/-- Witness for C1 (amended): the configuration of the counterexample run
indeed records job capacity 5 and an unbuffered result channel. -/
theorem claim_c1_witness :
    ∃ cfg, mainModel ['h'] "80,443".toList 5 500 = .runEngine cfg ∧
      cfg.jobCapacity = 5 ∧ cfg.resultCapacity = 0 := by
  have hmm : mainModel ['h'] "80,443".toList 5 500 =
      .runEngine
        { host := ['h'], ports := [80, 443], jobCapacity := 5, resultCapacity := 0,
          numWorkers := 2, timeoutMs := 500 } := by
    unfold mainModel
    rw [parseEval_80_443]
    decide
  obtain ⟨h1, h2⟩ := claim_c1_amended ['h'] "80,443".toList 5 500 _ hmm
  exact ⟨_, hmm, h1, h2⟩

/-! ## Claim C9 — blank specification short-circuits -/

/-- `splitOnChar` never returns the empty list of parts. -/
theorem splitOnChar_ne_nil (sep : Char) (s : List Char) : splitOnChar sep s ≠ [] := by
  induction s with
  | nil => simp [splitOnChar]
  | cons c rest ih =>
    unfold splitOnChar
    by_cases h : c = sep
    · simp [h]
    · simp only [if_neg h]
      cases hsp : splitOnChar sep rest with
      | nil => simp
      | cons t ts => simp

/-- Every character of every part produced by `splitOnChar` occurs in the
input and is not the separator. -/
theorem splitOnChar_chars {sep : Char} {s : List Char} :
    ∀ part ∈ splitOnChar sep s, ∀ c ∈ part, c ∈ s ∧ c ≠ sep := by
  induction s with
  | nil =>
    intro part hp c hc
    simp only [splitOnChar, List.mem_singleton] at hp
    subst hp
    cases hc
  | cons a rest ih =>
    intro part hp c hc
    unfold splitOnChar at hp
    by_cases h : a = sep
    · rw [if_pos h] at hp
      rcases List.mem_cons.mp hp with rfl | hp2
      · cases hc
      · obtain ⟨hcr, hcs⟩ := ih part hp2 c hc
        exact ⟨List.mem_cons_of_mem a hcr, hcs⟩
    · rw [if_neg h] at hp
      cases hsp : splitOnChar sep rest with
      | nil => exact absurd hsp (splitOnChar_ne_nil sep rest)
      | cons t ts =>
        rw [hsp] at hp
        rcases List.mem_cons.mp hp with rfl | hp2
        · rcases List.mem_cons.mp hc with rfl | hct
          · exact ⟨List.mem_cons_self c rest, h⟩
          · obtain ⟨hcr, hcs⟩ := ih t (by rw [hsp]; exact List.mem_cons_self t ts) c hct
            exact ⟨List.mem_cons_of_mem a hcr, hcs⟩
        · obtain ⟨hcr, hcs⟩ :=
            ih part (by rw [hsp]; exact List.mem_cons_of_mem t hp2) c hc
          exact ⟨List.mem_cons_of_mem a hcr, hcs⟩

/-- A part consisting only of white space trims to the empty token. -/
theorem trimSpace_eq_nil {l : List Char} (h : ∀ c ∈ l, goIsSpace c = true) :
    trimSpace l = [] := by
  unfold trimSpace
  rw [List.dropWhile_eq_nil_iff.mpr h]
  rfl

/-- The token loop skips every part that trims to the empty token and
returns the accumulated set unchanged. -/
theorem foldlM_parseStep_blank {parts : List (List Char)}
    (h : ∀ part ∈ parts, trimSpace part = []) (st : Finset ℤ) :
    parts.foldlM parseStep st = .ok st := by
  induction parts generalizing st with
  | nil => rfl
  | cons p rest ih =>
    have hp : trimSpace p = [] := h p (List.mem_cons_self p rest)
    have hps : parseStep st p = .ok st := by simp [parseStep, hp]
    show parseStep st p >>= (fun st2 => rest.foldlM parseStep st2) = .ok st
    rw [hps]
    show rest.foldlM parseStep st = .ok st
    exact ih (fun q hq => h q (List.mem_cons_of_mem p hq)) st

/-- C9: for every specification consisting only of white space and
commas (including the empty one), `parsePorts` returns the empty
sequence and no error, and — when host and worker flags are valid —
`main` short-circuits: the engine is never invoked, the outcome is the
"nothing to scan" notice, and the exit code is 0, not 2. -/
theorem claim_c9_blank_spec (host portsSpec : List Char) (workers timeoutMs : ℤ)
    (hhost : host ≠ []) (hw1 : 1 ≤ workers) (hw2 : workers ≤ 10000)
    (hblank : ∀ c ∈ portsSpec, goIsSpace c = true ∨ c = ',') :
    parsePorts portsSpec = .ok [] ∧
    mainModel host portsSpec workers timeoutMs = .nothingToScan ∧
    exitCode (mainModel host portsSpec workers timeoutMs) = 0 ∧
    engineInvoked (mainModel host portsSpec workers timeoutMs) = false := by
  have hparse : parsePorts portsSpec = .ok [] := by
    have hfold : (splitOnChar ',' portsSpec).foldlM parseStep (∅ : Finset ℤ) = .ok ∅ := by
      apply foldlM_parseStep_blank
      intro part hp
      apply trimSpace_eq_nil
      intro c hc
      obtain ⟨hcs, hcn⟩ := splitOnChar_chars part hp c hc
      rcases hblank c hcs with hb | hb
      · exact hb
      · exact absurd hb hcn
    unfold parsePorts
    rw [hfold]
    show Except.ok ((∅ : Finset ℤ).sort (· ≤ ·)) = Except.ok []
    rw [Finset.sort_empty]
  have hmm : mainModel host portsSpec workers timeoutMs = .nothingToScan := by
    unfold mainModel
    rw [if_neg hhost, if_neg (by omega), if_neg (by omega), hparse]
    rfl
  exact ⟨hparse, hmm, by rw [hmm]; rfl, by rw [hmm]; rfl⟩

/-- Witness for C9: the all-blank specification " , ," with valid host
and worker flags yields an empty parse and the "nothing to scan"
outcome with exit code 0. -/
theorem claim_c9_witness :
    parsePorts " , ,".toList = .ok [] ∧
    mainModel ['h'] " , ,".toList 100 500 = .nothingToScan ∧
    exitCode (mainModel ['h'] " , ,".toList 100 500) = 0 ∧
    engineInvoked (mainModel ['h'] " , ,".toList 100 500) = false :=
  claim_c9_blank_spec ['h'] " , ,".toList 100 500
    (by decide) (by decide) (by decide) (by decide)

/-! ## Claim C6 — error kinds by token shape -/

/-- C6: the error kind of `parsePorts` on a token is determined by the
token's shape (the token here is the already-trimmed, non-empty string
the loop hands to lines 24-52): a range token with a side that does not
parse as an integer fails with `invalidPort`; a range token whose parsed
sides lie outside [1, 65535] or satisfy a > b fails with `invalidRange`;
a non-numeric single token fails with `invalidPort`; a single integer
token outside [1, 65535] fails with `portOutOfRange`; and a valid range
token adds every integer of [a, b] to the set. -/
theorem claim_c6_error_kinds :
    (∀ (st : Finset ℤ) (p b0 b1 : List Char), '-' ∈ p → splitN2 '-' p = [b0, b1] →
        (atoi (trimSpace b0) = none ∨ atoi (trimSpace b1) = none) →
        processToken st p = .error .invalidPort) ∧
    (∀ (st : Finset ℤ) (p b0 b1 : List Char) (a b : ℤ), '-' ∈ p →
        splitN2 '-' p = [b0, b1] →
        atoi (trimSpace b0) = some a → atoi (trimSpace b1) = some b →
        (a < 1 ∨ b < 1 ∨ a > 65535 ∨ b > 65535 ∨ a > b) →
        processToken st p = .error .invalidRange) ∧
    (∀ (st : Finset ℤ) (p : List Char), '-' ∉ p → atoi p = none →
        processToken st p = .error .invalidPort) ∧
    (∀ (st : Finset ℤ) (p : List Char) (n : ℤ), '-' ∉ p → atoi p = some n →
        (n < 1 ∨ n > 65535) → processToken st p = .error .portOutOfRange) ∧
    (∀ (st : Finset ℤ) (p b0 b1 : List Char) (a b : ℤ), '-' ∈ p →
        splitN2 '-' p = [b0, b1] →
        atoi (trimSpace b0) = some a → atoi (trimSpace b1) = some b →
        1 ≤ a → 1 ≤ b → a ≤ 65535 → b ≤ 65535 → a ≤ b →
        processToken st p = .ok (st ∪ Finset.Icc a b)) := by
  refine ⟨?_, ?_, ?_, ?_, ?_⟩
  · intro st p b0 b1 hm hsp hnone
    unfold processToken
    rw [if_pos hm]
    rcases hnone with h0 | h1
    · simp only [hsp, h0]
    · cases ha : atoi (trimSpace b0) with
      | none => simp only [hsp, ha]
      | some a => simp only [hsp, ha, h1]
  · intro st p b0 b1 a b hm hsp ha hb hbad
    unfold processToken
    rw [if_pos hm]
    simp only [hsp, ha, hb]
    rw [if_pos (by simp only [decide_eq_true_eq, Bool.or_eq_true]; omega)]
  · intro st p hm hnone
    unfold processToken
    rw [if_neg hm]
    simp only [hnone]
  · intro st p n hm hn hbad
    unfold processToken
    rw [if_neg hm]
    simp only [hn]
    rw [if_pos (by simp only [decide_eq_true_eq, Bool.or_eq_true]; omega)]
  · intro st p b0 b1 a b hm hsp ha hb h1 h2 h3 h4 h5
    unfold processToken
    rw [if_pos hm]
    simp only [hsp, ha, hb]
    rw [if_neg (by simp only [decide_eq_true_eq, Bool.or_eq_true]; omega)]

/-- Witness for C6: each error kind exercised on a concrete token:
"x-2" (non-numeric range side), "5-3" (inverted range), "abc"
(non-numeric single token), "0" (single token out of range), and the
valid range "1-3". -/
theorem claim_c6_witness :
    processToken ∅ "x-2".toList = .error .invalidPort ∧
    processToken ∅ "5-3".toList = .error .invalidRange ∧
    processToken ∅ "abc".toList = .error .invalidPort ∧
    processToken ∅ "0".toList = .error .portOutOfRange ∧
    processToken ∅ "1-3".toList = .ok (∅ ∪ Finset.Icc 1 3) :=
  ⟨claim_c6_error_kinds.1 ∅ "x-2".toList "x".toList "2".toList
      (by decide) (by decide) (Or.inl (by decide)),
   claim_c6_error_kinds.2.1 ∅ "5-3".toList "5".toList "3".toList 5 3
      (by decide) (by decide) (by decide) (by decide) (by omega),
   claim_c6_error_kinds.2.2.1 ∅ "abc".toList (by decide) (by decide),
   claim_c6_error_kinds.2.2.2.1 ∅ "0".toList 0 (by decide) (by decide) (by omega),
   claim_c6_error_kinds.2.2.2.2 ∅ "1-3".toList "1".toList "3".toList 1 3
      (by decide) (by decide) (by decide) (by decide)
      (by omega) (by omega) (by omega) (by omega) (by omega)⟩

/-! ## Claim C7 — boundary behavior -/

/-- C7: `parsePorts "1-65535"` succeeds with exactly 65535 entries — the
ascending sequence of the integers of [1, 65535] — while `"0"` and
`"65536"` fail with `portOutOfRange` and `"5-3"` fails with
`invalidRange`. -/
theorem claim_c7_boundaries :
    (∃ l, parsePorts "1-65535".toList = .ok l ∧ l.length = 65535 ∧
      l.Sorted (· ≤ ·) ∧ ∀ x : ℤ, x ∈ l ↔ 1 ≤ x ∧ x ≤ 65535) ∧
    parsePorts "0".toList = .error .portOutOfRange ∧
    parsePorts "65536".toList = .error .portOutOfRange ∧
    parsePorts "5-3".toList = .error .invalidRange := by
  refine ⟨?_, rfl, rfl, rfl⟩
  have h : parsePorts "1-65535".toList
      = .ok (((∅ ∪ Finset.Icc 1 65535) : Finset ℤ).sort (· ≤ ·)) := rfl
  refine ⟨_, h, ?_, Finset.sort_sorted _ _, ?_⟩
  · rw [Finset.length_sort, Finset.empty_union, Int.card_Icc]
    rfl
  · intro x
    rw [Finset.mem_sort, Finset.empty_union, Finset.mem_Icc]

/-! ## Claim C10 — whitespace inside tokens -/

/-- A string containing a space character never parses as an integer
(`strconv.Atoi` accepts only an optional sign followed by digits). -/
theorem atoi_eq_none_of_space {l : List Char} (h : ' ' ∈ l) : atoi l = none := by
  cases l with
  | nil => cases h
  | cons c rest =>
    by_cases hs : (c = '-' || c = '+' : Bool) = true
    · have hc : ¬ (' ' = c) := by
        have hs2 := hs
        simp only [Bool.or_eq_true, decide_eq_true_eq] at hs2
        rcases hs2 with h1 | h1 <;> subst h1 <;> decide
      have hsp : ' ' ∈ rest := by
        rcases List.mem_cons.mp h with h1 | h1
        · exact absurd h1 hc
        · exact h1
      have hall : rest.all Char.isDigit = false := by
        rw [List.all_eq_false]
        exact ⟨' ', hsp, by decide⟩
      simp [atoi, hs, List.ne_nil_of_mem hsp, hall]
    · have hall : (c :: rest).all Char.isDigit = false := by
        rw [List.all_eq_false]
        exact ⟨' ', h, by decide⟩
      simp [atoi, hs, hall]

/-- C10 (implicit behavior): within a range token the bounds are trimmed
before integer parsing, so "80 - 90" (spaces around the dash) resolves to
the ports 80 through 90; a single (non-range) token is only trimmed as a
whole, and any interior space makes it fail as non-numeric
(`invalidPort`), as for "8 0". -/
theorem claim_c10_token_whitespace :
    parsePorts "80 - 90".toList
      = .ok [80, 81, 82, 83, 84, 85, 86, 87, 88, 89, 90] ∧
    (∀ (st : Finset ℤ) (p : List Char), '-' ∉ trimSpace p → ' ' ∈ trimSpace p →
        processToken st (trimSpace p) = .error .invalidPort) ∧
    parsePorts "8 0".toList = .error .invalidPort := by
  refine ⟨?_, ?_, rfl⟩
  · have h : parsePorts "80 - 90".toList
        = .ok (((∅ ∪ Finset.Icc 80 90) : Finset ℤ).sort (· ≤ ·)) := rfl
    rw [h, finsetSortEq [80, 81, 82, 83, 84, 85, 86, 87, 88, 89, 90]
      (by decide) (by decide) (by decide)]
  · intro st p hm hsp
    unfold processToken
    rw [if_neg hm]
    simp only [atoi_eq_none_of_space hsp]

/-- Witness for C10: the single token "8 0" has no dash and an interior
space, so the token loop rejects it as an invalid port. -/
theorem claim_c10_witness :
    processToken ∅ (trimSpace "8 0".toList) = .error .invalidPort :=
  claim_c10_token_whitespace.2.1 ∅ "8 0".toList (by decide) (by decide)

/-! ## Claim C5 — order independence of the resolver -/

/-- The set a token contributes does not depend on the accumulated set:
one loop iteration either fails (independently of the accumulator) or
unions a token-determined set into it. -/
theorem processToken_indep (st : Finset ℤ) (p : List Char) :
    processToken st p = (processToken ∅ p).map (fun c => st ∪ c) := by
  unfold processToken
  by_cases hm : '-' ∈ p
  · rw [if_pos hm, if_pos hm]
    rcases hsp : splitN2 '-' p with _ | ⟨b0, _ | ⟨b1, _ | ⟨u, v⟩⟩⟩
    · simp only [hsp]
      rfl
    · simp only [hsp]
      rfl
    · simp only [hsp]
      rcases ha : atoi (trimSpace b0) with _ | a
      · simp only [ha]
        rfl
      · simp only [ha]
        rcases hb : atoi (trimSpace b1) with _ | b
        · simp only [hb]
          rfl
        · simp only [hb]
          by_cases hc : (a < 1 || b < 1 || a > 65535 || b > 65535 || a > b : Bool) = true
          · rw [if_pos hc, if_pos hc]
            rfl
          · rw [if_neg hc, if_neg hc]
            show Except.ok (st ∪ Finset.Icc a b) = .ok (st ∪ (∅ ∪ Finset.Icc a b))
            rw [Finset.empty_union]
    · simp only [hsp]
      rfl
  · rw [if_neg hm, if_neg hm]
    rcases hn : atoi p with _ | n
    · simp only [hn]
      rfl
    · simp only [hn]
      by_cases hc : (n < 1 || n > 65535 : Bool) = true
      · rw [if_pos hc, if_pos hc]
        rfl
      · rw [if_neg hc, if_neg hc]
        show Except.ok (insert n st) = .ok (st ∪ insert n ∅)
        rw [Finset.union_comm, Finset.insert_union, Finset.empty_union]

/-- The loop body has the same accumulator independence. -/
theorem parseStep_indep (st : Finset ℤ) (p : List Char) :
    parseStep st p = (parseStep ∅ p).map (fun c => st ∪ c) := by
  show (if trimSpace p = [] then Except.ok st else processToken st (trimSpace p))
      = (if trimSpace p = [] then Except.ok (∅ : Finset ℤ)
          else processToken ∅ (trimSpace p)).map (fun c => st ∪ c)
  by_cases ht : trimSpace p = []
  · rw [if_pos ht, if_pos ht]
    show Except.ok st = .ok (st ∪ ∅)
    rw [Finset.union_empty]
  · rw [if_neg ht, if_neg ht]
    exact processToken_indep st (trimSpace p)

/-- Unfolding the token loop over a part that succeeds. -/
theorem foldlM_parseStep_cons_ok {st c : Finset ℤ} {p : List Char}
    {rest : List (List Char)} (hp : parseStep st p = .ok c) :
    (p :: rest).foldlM parseStep st = rest.foldlM parseStep c := by
  show parseStep st p >>= (fun st2 => rest.foldlM parseStep st2) = _
  rw [hp]
  rfl

/-- Unfolding the token loop over a part that fails. -/
theorem foldlM_parseStep_cons_error {st : Finset ℤ} {e : PErr} {p : List Char}
    {rest : List (List Char)} (hp : parseStep st p = .error e) :
    (p :: rest).foldlM parseStep st = .error e := by
  show parseStep st p >>= (fun st2 => rest.foldlM parseStep st2) = _
  rw [hp]
  rfl

/-- Running the loop from accumulator `st` is running it from `∅` and
unioning `st` into the result. -/
theorem foldlM_parseStep_shift (parts : List (List Char)) (st : Finset ℤ) :
    parts.foldlM parseStep st = (parts.foldlM parseStep ∅).map (fun c => st ∪ c) := by
  induction parts generalizing st with
  | nil =>
    show Except.ok st = (Except.ok (∅ : Finset ℤ)).map (fun c => st ∪ c)
    show Except.ok st = .ok (st ∪ ∅)
    rw [Finset.union_empty]
  | cons p rest ih =>
    cases hp : parseStep ∅ p with
    | error e =>
      have hp2 : parseStep st p = .error e := by
        rw [parseStep_indep, hp]
        rfl
      rw [foldlM_parseStep_cons_error hp2, foldlM_parseStep_cons_error hp]
      rfl
    | ok c =>
      have hp2 : parseStep st p = .ok (st ∪ c) := by
        rw [parseStep_indep, hp]
        rfl
      rw [foldlM_parseStep_cons_ok hp2, foldlM_parseStep_cons_ok hp]
      rw [ih (st ∪ c), ih c]
      cases rest.foldlM parseStep (∅ : Finset ℤ) with
      | error e => rfl
      | ok r =>
        show Except.ok (st ∪ c ∪ r) = .ok (st ∪ (c ∪ r))
        rw [Finset.union_assoc]

/-- A permutation of the comma-separated parts leaves a successful run of
the token loop unchanged. -/
theorem foldlM_parseStep_perm {l1 l2 : List (List Char)} (hp : l1.Perm l2) :
    ∀ {r : Finset ℤ}, l1.foldlM parseStep (∅ : Finset ℤ) = .ok r →
      l2.foldlM parseStep (∅ : Finset ℤ) = .ok r := by
  induction hp with
  | nil => exact fun h => h
  | cons x hp2 ih =>
    rename_i tl1 tl2
    intro r h
    cases hx : parseStep ∅ x with
    | error e => rw [foldlM_parseStep_cons_error hx] at h; cases h
    | ok c =>
      rw [foldlM_parseStep_cons_ok hx] at h
      rw [foldlM_parseStep_shift] at h
      cases hf : tl1.foldlM parseStep (∅ : Finset ℤ) with
      | error e => rw [hf] at h; cases h
      | ok r1 =>
        rw [hf] at h
        cases h
        rw [foldlM_parseStep_cons_ok hx, foldlM_parseStep_shift, ih hf]
        rfl
  | swap x y l =>
    intro r h
    cases hy : parseStep ∅ y with
    | error e => rw [foldlM_parseStep_cons_error hy] at h; cases h
    | ok cy =>
      rw [foldlM_parseStep_cons_ok hy] at h
      cases hx : parseStep ∅ x with
      | error e =>
        have hx2 : parseStep cy x = .error e := by
          rw [parseStep_indep, hx]
          rfl
        rw [foldlM_parseStep_cons_error hx2] at h
        cases h
      | ok cx =>
        have hx2 : parseStep cy x = .ok (cy ∪ cx) := by
          rw [parseStep_indep, hx]
          rfl
        have hy2 : parseStep cx y = .ok (cx ∪ cy) := by
          rw [parseStep_indep, hy]
          rfl
        rw [foldlM_parseStep_cons_ok hx2] at h
        rw [foldlM_parseStep_cons_ok hx, foldlM_parseStep_cons_ok hy2,
          Finset.union_comm cx cy]
        exact h
  | trans hp1 hp2 ih1 ih2 => exact fun h => ih2 (ih1 h)

/-- C5: `parsePorts` is order-independent and collapses overlaps: any
permutation of the comma-separated parts of a successfully parsed
specification parses to the same ascending sequence; every successful
result is duplicate-free and sorted (so a port named by both a literal
and an overlapping range appears exactly once); and concretely
`"443,80"` and `"80,443"` both resolve to `[80, 443]` while
`"20-22,21"` resolves to `[20, 21, 22]`. -/
theorem claim_c5_order_independence :
    (∀ (s1 s2 : List Char) (l : List ℤ),
        (splitOnChar ',' s1).Perm (splitOnChar ',' s2) →
        parsePorts s1 = .ok l → parsePorts s2 = .ok l) ∧
    (∀ (s : List Char) (l : List ℤ), parsePorts s = .ok l →
        l.Nodup ∧ l.Sorted (· ≤ ·)) ∧
    parsePorts "443,80".toList = .ok [80, 443] ∧
    parsePorts "80,443".toList = .ok [80, 443] ∧
    parsePorts "20-22,21".toList = .ok [20, 21, 22] := by
  refine ⟨?_, ?_, parseEval_443_80, parseEval_80_443, parseEval_20_22_21⟩
  · intro s1 s2 l hp h
    unfold parsePorts at h ⊢
    cases hf : (splitOnChar ',' s1).foldlM parseStep (∅ : Finset ℤ) with
    | error e => rw [hf] at h; cases h
    | ok r =>
      rw [hf] at h
      rw [foldlM_parseStep_perm hp hf]
      exact h
  · intro s l h
    unfold parsePorts at h
    cases hf : (splitOnChar ',' s).foldlM parseStep (∅ : Finset ℤ) with
    | error e => rw [hf] at h; cases h
    | ok r =>
      rw [hf] at h
      cases h
      exact ⟨Finset.sort_nodup _ _, Finset.sort_sorted _ _⟩

/-- Witness for C5: the parts of "443,80" are a permutation of the parts
of "80,443", and order independence transports the evaluation of the
former to the latter. -/
theorem claim_c5_witness :
    (splitOnChar ',' "443,80".toList).Perm (splitOnChar ',' "80,443".toList) ∧
    parsePorts "80,443".toList = .ok [80, 443] :=
  ⟨by decide,
   claim_c5_order_independence.1 "443,80".toList "80,443".toList [80, 443]
     (by decide) claim_c5_order_independence.2.2.1⟩
